import Mathlib

/-!
Verification development for the rPTMValidation core: a shallow embedding of
the spectrum signal-processing engine (mass_spectrum.py) and the modification
database lookups (readers/ptmdb.py), with theorems checking the stated
properties of those operations.

Numeric values (numpy float64 in the source) are modelled as rationals; the
algorithms under study use only field arithmetic and comparisons.
-/

set_option allowUnsafeReducibility true
attribute [local semireducible] Rat.add Rat.sub Rat.mul Rat.inv

namespace RPTM

/-- A mass-spectral peak: an (mz, intensity) pair.  The source stores peaks as
rows of a numpy array with mz in column 0 and intensity in column 1. -/
abbrev Peak : Type := ℚ × ℚ

/-- Comparison of peaks by their mz value (column 0). -/
def mzLe (p q : Peak) : Prop := p.1 ≤ q.1

instance : DecidableRel mzLe := fun p q => inferInstanceAs (Decidable (p.1 ≤ q.1))

instance : IsTotal Peak mzLe := ⟨fun p q => le_total p.1 q.1⟩

instance : IsTrans Peak mzLe := ⟨fun _ _ _ h1 h2 => le_trans h1 h2⟩

/-- The Spectrum invariant: the peak list is sorted ascending by mz. -/
def mzSorted (l : List Peak) : Prop := List.Sorted mzLe l

instance (l : List Peak) : Decidable (mzSorted l) :=
  inferInstanceAs (Decidable (List.Pairwise mzLe l))

/-- Model of Spectrum._mz_sort: reorder the rows so that the mz column is
ascending. -/
def mzSort (l : List Peak) : List Peak := List.insertionSort mzLe l

/-- Model of the Spectrum class state: the composed peak array plus the
precursor mz, charge and retention time slots. -/
structure Spectrum where
  peaks : List Peak
  prec_mz : ℚ
  charge : Option Int
  retention_time : Option ℚ
deriving DecidableEq

/-- Interpret one row of a peaks-by-2 array as a peak (columns 0 and 1). -/
def rowToPeak (r : List ℚ) : Peak := (r.getD 0 0, r.getD 1 0)

/-- Model of Spectrum.__init__: build the array from the given nested list,
transpose it when its first dimension equals 2 (the shape check in the
constructor), and sort the rows by mz. -/
def mkSpectrum (peak_list : List (List ℚ)) (prec_mz : ℚ) (charge : Option Int)
    (retention_time : Option ℚ) : Spectrum :=
  let arr := if peak_list.length = 2 then peak_list.transpose else peak_list
  { peaks := mzSort (arr.map rowToPeak)
    prec_mz := prec_mz
    charge := charge
    retention_time := retention_time }

/-- Model of Spectrum.__setitem__: plain assignment into the composed array,
with no re-sorting afterwards. -/
def Spectrum.setItem (s : Spectrum) (key : Nat) (value : Peak) : Spectrum :=
  { s with peaks := s.peaks.set key value }

/-- Model of Spectrum.max_intensity: the maximum of the intensity column. -/
def Spectrum.max_intensity (s : Spectrum) : ℚ :=
  match s.peaks with
  | [] => 0
  | p :: ps => ps.foldl (fun a q => max a q.2) p.2

/-- Model of Spectrum.normalize: divide every intensity by the maximum
intensity, in place. -/
def Spectrum.normalize (s : Spectrum) : Spectrum :=
  { s with peaks := s.peaks.map (fun p => (p.1, p.2 / s.max_intensity)) }

/-- Model of Spectrum.remove_itraq at the peak-list level: keep exactly the
rows whose mz differs from every reference mass by strictly more than the
tolerance (the numpy outer-difference filter). -/
def removeItraqPeaks (refMasses : List ℚ) (tol : ℚ) (peaks : List Peak) : List Peak :=
  peaks.filter (fun p => refMasses.all (fun m => decide (tol < |p.1 - m|)))

/-- Model of Spectrum.remove_itraq.  The reference reporter-mass list
ITRAQ_MASSES lives in a constants module outside the sources under study, so
it is passed as a parameter here. -/
def Spectrum.remove_itraq (s : Spectrum) (refMasses : List ℚ) (tol : ℚ) : Spectrum :=
  { s with peaks := removeItraqPeaks refMasses tol s.peaks }

/-! ### Centroiding (Spectrum.centroid) -/

/-- The centroiding threshold of 0.1 Da appearing throughout
Spectrum.centroid. -/
def gapLimit : ℚ := 1/10

/-- Model of the inner while loop of Spectrum.centroid: starting from the
peak just appended to the cluster, keep appending the following peak while
the mz gap is at most 0.1; return the grown cluster tail and the remaining
peaks. -/
def clusterLoop : Peak → List Peak → List Peak × List Peak
  | p, [] => ([p], [])
  | p, q :: r =>
    if q.1 - p.1 > gapLimit then ([p], q :: r)
    else
      let t := clusterLoop q r
      (p :: t.1, t.2)

/-- Model of Python max(cluster, key=itemgetter(1)): the first peak of
maximal intensity, scanning left to right. -/
def maxByIntensity : Peak → List Peak → Peak
  | p, [] => p
  | p, q :: r => if q.2 > p.2 then maxByIntensity q r else maxByIntensity p r

/-- Model of the cluster-emission step of Spectrum.centroid: if all
intensities in the cluster agree, emit the mean mz with that intensity;
otherwise emit the peak of maximal intensity (first such, in scan order). -/
def centroidCluster : List Peak → Peak
  | [] => (0, 0)
  | p :: ps =>
    if ps.all (fun q => q.2 == p.2) then
      (((p :: ps).map Prod.fst).sum / (((p :: ps).length : ℚ)), p.2)
    else maxByIntensity p ps

/-- Model of the outer while loop of Spectrum.centroid, with explicit fuel
(one unit per emitted peak; the list length always suffices). -/
def centroidGo : Nat → List Peak → List Peak
  | _, [] => []
  | _, [p] => [p]
  | 0, l => l
  | fuel + 1, p :: q :: r =>
    if q.1 - p.1 > gapLimit then p :: centroidGo fuel (q :: r)
    else
      let t := clusterLoop q r
      centroidCluster (p :: t.1) :: centroidGo fuel t.2

/-- The centroiding pass over a peak list. -/
def centroidList (l : List Peak) : List Peak := centroidGo l.length l

/-- Model of Spectrum.centroid: a no-op on spectra of length at most 1,
otherwise the single centroiding pass. -/
def Spectrum.centroid (s : Spectrum) : Spectrum :=
  if s.peaks.length ≤ 1 then s else { s with peaks := centroidList s.peaks }

/-! ### Spec-side description of centroiding

For the refinement check, the following definitions restate the specified
behaviour of the Centroider: partition the peak list into maximal runs of
consecutive mz gaps at most 0.1 and collapse each run to one peak. -/

/-- One step of the maximal-run partition: either start a new run with the
head peak or push it onto the first run of the already-partitioned tail,
according to the gap to the next peak. -/
def chunkCons (p : Peak) : List Peak → List (List Peak) → List (List Peak)
  | [], _ => [[p]]
  | _ :: _, [] => [[p]]
  | q :: _, c :: cs => if q.1 - p.1 ≤ gapLimit then (p :: c) :: cs else [p] :: c :: cs

/-- The maximal-run partition described by the spec: consecutive peaks stay
in the same run exactly when their mz gap is at most 0.1. -/
def chunkRuns : List Peak → List (List Peak)
  | [] => []
  | p :: rest => chunkCons p rest (chunkRuns rest)

/-- The maximum intensity occurring in a run (spec-side). -/
def runMaxIntensity : List Peak → ℚ
  | [] => 0
  | [p] => p.2
  | p :: q :: r => max p.2 (runMaxIntensity (q :: r))

/-- The one peak a run collapses to, as the spec words it: the mean mz with
the common intensity when all intensities agree, otherwise the first peak
carrying the maximum intensity of the run. -/
def specCluster (c : List Peak) : Peak :=
  if c.all (fun q => q.2 == (c.headD (0, 0)).2) then
    ((c.map Prod.fst).sum / ((c.length : ℚ)), (c.headD (0, 0)).2)
  else
    (c.find? (fun q => q.2 == runMaxIntensity c)).getD (0, 0)

/-- The spec-side centroiding function: collapse every maximal run. -/
def centroidRuns (l : List Peak) : List Peak := (chunkRuns l).map specCluster

/-- Two peaks separated by strictly more than the centroiding threshold. -/
def bigGap (a b : Peak) : Prop := b.1 - a.1 > gapLimit

/-- Adjacent runs are separated by strictly more than the threshold. -/
def runBoundary (c d : List Peak) : Prop :=
  (d.headD (0, 0)).1 - (c.getLastD (0, 0)).1 > gapLimit

/-! ### Windowed denoising (Spectrum.denoise) -/

/-- The mz at a given peak index (0 outside the array). -/
def mzAt (peaks : List Peak) (i : Nat) : ℚ := (peaks.getD i (0, 0)).1

/-- The intensity at a given peak index (0 outside the array). -/
def intensityAt (peaks : List Peak) (i : Nat) : ℚ := (peaks.getD i (0, 0)).2

/-- Model of Python int() applied to a float: truncation toward zero. -/
def pyInt (q : ℚ) : Int := Int.tdiv q.num q.den

/-- Model of the scan "for end_idx in range(start_idx, npeaks): if
peaks[end_idx][0] > max_mass: break" of Spectrum.denoise: the value end_idx
holds after the loop.  The fuel argument only drives the recursion; the
caller passes npeaks - start, which always suffices. -/
def findEndGo (peaks : List Peak) (maxMass : ℚ) (npeaks : Nat) : Nat → Nat → Nat
  | 0, i => i
  | steps + 1, i =>
    if mzAt peaks i > maxMass then i
    else if i + 1 < npeaks then findEndGo peaks maxMass npeaks steps (i + 1)
    else i

/-- The end index of the current window: the first index at or after
startIdx whose mz exceeds maxMass, or npeaks - 1 when no such index
exists (the loop variable keeps its final value). -/
def findEnd (peaks : List Peak) (maxMass : ℚ) (npeaks startIdx : Nat) : Nat :=
  findEndGo peaks maxMass npeaks (npeaks - startIdx) startIdx

/-- The ranking used inside a window: descending intensity, with equal
intensities kept in ascending index order (Python stable sort with
reverse=True). -/
def intensityRank (peaks : List Peak) (i j : Nat) : Prop :=
  intensityAt peaks j < intensityAt peaks i ∨
    (intensityAt peaks i = intensityAt peaks j ∧ i ≤ j)

instance (peaks : List Peak) : DecidableRel (intensityRank peaks) := fun i j =>
  inferInstanceAs (Decidable (_ ∨ _))

/-- The candidate indices of a window, ranked by descending intensity. -/
def rankedWindow (peaks : List Peak) (startIdx endIdx : Nat) : List Nat :=
  List.insertionSort (intensityRank peaks) (List.range' startIdx (endIdx - startIdx))

/-- Model of the multi-candidate branch of Spectrum.denoise: rank the window
candidates by descending intensity, score every prefix length from 1 to
min(window size, max_peaks_per_window) by its number of annotated peaks, and
keep the shortest prefix achieving the maximum score. -/
def windowSelect (peaks : List Peak) (assigned : List Bool)
    (maxPeaksPerWindow startIdx endIdx : Nat) : List Nat :=
  let window_peaks := rankedWindow peaks startIdx endIdx
  let ion_scores := window_peaks.map (fun i => assigned.getD i false)
  let kmax := min (ion_scores.length + 1) (maxPeaksPerWindow + 1)
  let sum_scores := (List.range' 1 (kmax - 1)).map (fun k => (ion_scores.take k).count true)
  window_peaks.take (sum_scores.indexOf (sum_scores.foldr max 0) + 1)

/-- Model of the window loop of Spectrum.denoise: one iteration per 100 Da
window, carrying the window number and the start index. -/
def denoiseLoop (peaks : List Peak) (assigned : List Bool)
    (maxPeaksPerWindow npeaks : Nat) (firstMz : ℚ) :
    Nat → Nat → Nat → List Nat
  | 0, _, _ => []
  | wleft + 1, w, startIdx =>
    let maxMass := firstMz + ((w : ℚ) + 1) * 100
    let endIdx := findEnd peaks maxMass npeaks startIdx
    if endIdx = startIdx then
      (if mzAt peaks endIdx ≤ maxMass ∧ assigned.getD endIdx false = true
        then [endIdx] else []) ++
        denoiseLoop peaks assigned maxPeaksPerWindow npeaks firstMz wleft (w + 1) startIdx
    else
      windowSelect peaks assigned maxPeaksPerWindow startIdx endIdx ++
        denoiseLoop peaks assigned maxPeaksPerWindow npeaks firstMz wleft (w + 1) endIdx

/-- Model of Spectrum.denoise: split the mass range into 100 Da windows,
select the retained indices per window, and rebuild a new Spectrum from the
selected rows through the class constructor (which re-sorts, and which
receives no retention time). -/
def Spectrum.denoise (s : Spectrum) (assigned : List Bool)
    (maxPeaksPerWindow : Nat) : List Nat × Spectrum :=
  let peaks := s.peaks
  let npeaks := peaks.length
  let firstMz := mzAt peaks 0
  let lastMz := (peaks.getLastD (0, 0)).1
  let n_windows := (pyInt ((lastMz - firstMz) / 100)).toNat + 1
  let new_peaks := denoiseLoop peaks assigned maxPeaksPerWindow npeaks firstMz n_windows 0 0
  (new_peaks,
    mkSpectrum (new_peaks.map (fun i => [mzAt peaks i, intensityAt peaks i]))
      s.prec_mz s.charge none)

/-! ### The modification database (readers/ptmdb.py) -/

/-- The two mass conventions selectable in PTMDB queries. -/
inductive MassType
  | mono
  | avg
deriving DecidableEq

/-- One row of the mods table, as inserted by PTMDB._initialize.  The
full_name column holds the value already normalized at insertion time. -/
structure ModRow where
  name : String
  full_name : String
  mono_mass : ℚ
  avg_mass : ℚ
  composition : String
deriving DecidableEq

/-- Model of Python str.lower() for the strings at hand. -/
def pyLower (s : String) : String := ⟨s.data.map Char.toLower⟩

/-- Model of Python str.replace(" ", ""): drop every space. -/
def pyStripSpaces (s : String) : String := ⟨s.data.filter (fun c => c != ' ')⟩

/-- The normalization PTMDB._initialize applies to the full_name attribute
before storing it: remove spaces, then lowercase. -/
def storedFullName (s : String) : String := pyLower (pyStripSpaces s)

/-- Model of the mods table: rows in insertion order. -/
abbrev ModTable := List ModRow

/-- Model of PTMDB._get_row_by_name: select by exact name; on miss, select
by full_name compared against the merely lowercased query; none models the
ModificationNotFoundException. -/
def getRowByName (db : ModTable) (name : String) : Option ModRow :=
  match db.find? (fun r => r.name == name) with
  | some r => some r
  | none => db.find? (fun r => r.full_name == pyLower name)

/-- The mass column selected by PTMDB._get_mass_col. -/
def massCol (t : MassType) (r : ModRow) : ℚ :=
  match t with
  | .mono => r.mono_mass
  | .avg => r.avg_mass

/-- Model of PTMDB.get_mass: the requested mass of the row found by
_get_row_by_name; none models the exception. -/
def get_mass (db : ModTable) (name : String) (t : MassType) : Option ℚ :=
  (getRowByName db name).map (massCol t)

/-! ### The composition-formula scanner (PTMDB.formula_regex) -/

/-- A word character in the sense of the regex class backslash-w, for the
ASCII composition strings at hand. -/
def isWordChar (c : Char) : Bool := c.isAlphanum || c == '_'

/-- A character of the count group [0-9-]. -/
def isCountChar (c : Char) : Bool := c.isDigit || c == '-'

/-- Consume the optional opening parenthesis of a formula_regex match. -/
def dropParenOpen : List Char → List Char
  | '(' :: t => t
  | r => r

/-- Consume the optional closing parenthesis of a formula_regex match. -/
def dropParenClose : List Char → List Char
  | ')' :: t => t
  | r => r

/-- The symbol group of a match starting at c. -/
def matchSym (c : Char) (cs : List Char) : List Char := c :: cs.takeWhile isWordChar

/-- The count group of a match: the maximal [0-9-] run after the optional
opening parenthesis, or none when it is empty. -/
def matchCount (cs : List Char) : Option String :=
  let d := (dropParenOpen (cs.dropWhile isWordChar)).takeWhile isCountChar
  if d.isEmpty then none else some ⟨d⟩

/-- The characters remaining after a whole match. -/
def matchRest (cs : List Char) : List Char :=
  dropParenClose ((dropParenOpen (cs.dropWhile isWordChar)).dropWhile isCountChar)

/-- Model of re.findall with the pattern of PTMDB.formula_regex: a word run,
an optional opening parenthesis, an optional [0-9-] run, an optional closing
parenthesis; matches are non-overlapping, scanning left to right.  The fuel
argument only drives the recursion; the input length always suffices since
every step consumes at least one character. -/
def scanGo : Nat → List Char → List (String × Option String)
  | 0, _ => []
  | _ + 1, [] => []
  | fuel + 1, c :: cs =>
    if isWordChar c then
      (⟨matchSym c cs⟩, matchCount cs) :: scanGo fuel (matchRest cs)
    else scanGo fuel cs

/-- All matches of formula_regex in a composition string. -/
def findallFormula (s : String) : List (String × Option String) :=
  scanGo s.data.length s.data

/-- The numeric value of a digit run. -/
def natOfDigits (ds : List Char) : Nat :=
  ds.foldl (fun a c => a * 10 + (c.toNat - '0'.toNat)) 0

/-- Model of Python int() on the strings the count group can produce
(digits and dashes): an optional single leading minus followed by at least
one digit; anything else raises ValueError, modelled by none. -/
def pyIntOfString (s : String) : Option Int :=
  match s.data with
  | '-' :: ds =>
    if ds ≠ [] ∧ ds.all Char.isDigit then some (-(natOfDigits ds : Int)) else none
  | ds =>
    if ds ≠ [] ∧ ds.all Char.isDigit then some ((natOfDigits ds : Int)) else none

/-- Python dict insertion: an existing key keeps its position and gets the
new value; a new key is appended. -/
def dictInsert (d : List (String × Int)) (k : String) (v : Int) : List (String × Int) :=
  if d.any (fun p => p.1 == k) then
    d.map (fun p => if p.1 == k then (p.1, v) else p)
  else d ++ [(k, v)]

/-- Python dict built from an association list, later bindings overwriting
earlier ones in place. -/
def pyDict (l : List (String × Int)) : List (String × Int) :=
  l.foldl (fun d kv => dictInsert d kv.1 kv.2) []

/-- Model of the dictionary comprehension of PTMDB.get_formula: each match
contributes int(v) when the count group matched and 1 otherwise; none models
the ValueError int() raises on a malformed count group. -/
def parseFormula (s : String) : Option (List (String × Int)) :=
  ((findallFormula s).mapM (fun (kv : String × Option String) =>
    match kv.2 with
    | none => some (kv.1, 1)
    | some v => (pyIntOfString v).map (fun n => (kv.1, n)))).map pyDict

/-- The errors PTMDB.get_formula can raise. -/
inductive PtmError
  | notFound
  | valueError
deriving DecidableEq

/-- Model of PTMDB.get_formula: resolve the row by name, then parse its
composition string. -/
def get_formula (db : ModTable) (name : String) :
    Except PtmError (List (String × Int)) :=
  match getRowByName db name with
  | none => .error .notFound
  | some r =>
    match parseFormula r.composition with
    | none => .error .valueError
    | some d => .ok d

/-! ### Spec-side definitions used to compare claims against the code -/

/-- The number of annotated peaks among a list of peak indices. -/
def annCount (assigned : List Bool) (l : List Nat) : Nat :=
  l.countP (fun i => assigned.getD i false)

/-- The row lookup as the claim words it: exact name first, then the stored
full_name compared against the query lowercased with spaces removed. -/
def claimGetRow (db : ModTable) (name : String) : Option ModRow :=
  match db.find? (fun r => r.name == name) with
  | some r => some r
  | none => db.find? (fun r => r.full_name == pyLower (pyStripSpaces name))

/-- The character rendering of one composition token: a bare symbol or a
symbol followed by a parenthesized count. -/
def tokenChars : String × Option String → List Char
  | (s, none) => s.data
  | (s, some c) => s.data ++ '(' :: c.data ++ [')']

/-- A space-separated token sequence, rendered to characters. -/
def joinTokens : List (String × Option String) → List Char
  | [] => []
  | [t] => tokenChars t
  | t :: ts => tokenChars t ++ ' ' :: joinTokens ts

/-- A well-formed count group: an optionally signed nonempty digit run,
exactly the strings Python's int() accepts among [0-9-] runs. -/
def wfCountB : List Char → Bool
  | '-' :: tail => !tail.isEmpty && tail.all Char.isDigit
  | ds => !ds.isEmpty && ds.all Char.isDigit

/-- A well-formed composition token in the sense of the claim: a nonempty
word-character symbol, and, when present, an optionally signed nonempty
digit-run count. -/
def wfToken : String × Option String → Prop
  | (s, c?) =>
    s.data ≠ [] ∧ (∀ ch ∈ s.data, isWordChar ch = true) ∧
      match c? with
      | none => True
      | some c => wfCountB c.data = true

/-- The numeric value of a well-formed count group, sign included. -/
def countValue : List Char → Int
  | '-' :: tail => -((natOfDigits tail : Int))
  | ds => ((natOfDigits ds : Int))

/-- The element-to-count binding a well-formed token denotes: a bare symbol
counts 1, a parenthesized count gives its numeric value. -/
def tokenValue : String × Option String → String × Int
  | (s, none) => (s, 1)
  | (s, some c) => (s, countValue c.data)

instance : (t : String × Option String) → Decidable (wfToken t)
  | (s, none) =>
    inferInstanceAs (Decidable
      (s.data ≠ [] ∧ (∀ ch ∈ s.data, isWordChar ch = true) ∧ True))
  | (s, some c) =>
    inferInstanceAs (Decidable
      (s.data ≠ [] ∧ (∀ ch ∈ s.data, isWordChar ch = true) ∧
        wfCountB c.data = true))

/-! ### Lemmas: the centroid pass equals the run-collapse description -/

/-- The remainder returned by the cluster loop never grows. -/
theorem clusterLoop_snd_length : ∀ (r : List Peak) (q : Peak),
    (clusterLoop q r).2.length ≤ r.length
  | [], _ => by simp [clusterLoop]
  | q' :: r', q => by
    simp only [clusterLoop]
    by_cases h : q'.1 - q.1 > gapLimit
    · rw [if_pos h]
    · rw [if_neg h]
      exact Nat.le_succ_of_le (clusterLoop_snd_length r' q')

/-- The first run of a nonempty list starts with its head. -/
theorem chunkRuns_cons (p : Peak) (rest : List Peak) :
    ∃ c cs, chunkRuns (p :: rest) = (p :: c) :: cs := by
  cases rest with
  | nil => exact ⟨[], [], rfl⟩
  | cons q rs =>
    show ∃ c cs, chunkCons p (q :: rs) (chunkRuns (q :: rs)) = (p :: c) :: cs
    cases h : chunkRuns (q :: rs) with
    | nil => exact ⟨[], [], rfl⟩
    | cons c cs =>
      by_cases hg : q.1 - p.1 ≤ gapLimit
      · exact ⟨c, cs, by simp only [chunkCons, if_pos hg]⟩
      · exact ⟨[], c :: cs, by simp only [chunkCons, if_neg hg]⟩

/-- The cluster loop computes exactly the first run and the rest of the
run partition. -/
theorem clusterLoop_chunk : ∀ (r : List Peak) (q : Peak),
    chunkRuns (q :: r) = (clusterLoop q r).1 :: chunkRuns (clusterLoop q r).2
  | [], q => by simp [chunkRuns, chunkCons, clusterLoop]
  | s :: rs, q => by
    by_cases hg : s.1 - q.1 > gapLimit
    · have hcl : clusterLoop q (s :: rs) = ([q], s :: rs) := by
        simp only [clusterLoop, if_pos hg]
      rw [hcl]
      show chunkCons q (s :: rs) (chunkRuns (s :: rs)) = [q] :: chunkRuns (s :: rs)
      obtain ⟨c, cs, hc⟩ := chunkRuns_cons s rs
      rw [hc]
      simp only [chunkCons, if_neg (not_le.mpr hg)]
    · have hcl : clusterLoop q (s :: rs) =
          (q :: (clusterLoop s rs).1, (clusterLoop s rs).2) := by
        simp only [clusterLoop, if_neg hg]
      rw [hcl]
      have IH := clusterLoop_chunk rs s
      show chunkCons q (s :: rs) (chunkRuns (s :: rs)) =
        (q :: (clusterLoop s rs).1) :: chunkRuns (clusterLoop s rs).2
      rw [IH]
      simp only [chunkCons, if_pos (not_lt.mp hg)]

/-- The head intensity never exceeds the run maximum. -/
theorem runMax_ge_head : ∀ (r : List Peak) (q : Peak),
    q.2 ≤ runMaxIntensity (q :: r)
  | [], _ => le_refl _
  | _ :: _, _ => le_max_left _ _

/-- Unfolding lemma for the run maximum on two or more peaks. -/
theorem runMaxIntensity_cons₂ (p q : Peak) (r : List Peak) :
    runMaxIntensity (p :: q :: r) = max p.2 (runMaxIntensity (q :: r)) := rfl

/-- Python max with an intensity key picks the first peak of maximal
intensity. -/
theorem maxByIntensity_eq : ∀ (ps : List Peak) (p : Peak),
    maxByIntensity p ps =
      ((p :: ps).find? (fun x => x.2 == runMaxIntensity (p :: ps))).getD (0, 0)
  | [], p => by simp [maxByIntensity, runMaxIntensity, List.find?]
  | q :: r, p => by
    have hq' : q.2 ≤ runMaxIntensity (q :: r) := runMax_ge_head r q
    by_cases h : q.2 > p.2
    · have hM : runMaxIntensity (p :: q :: r) = runMaxIntensity (q :: r) := by
        rw [runMaxIntensity_cons₂]
        exact max_eq_right (le_of_lt (lt_of_lt_of_le h hq'))
      have hp : (p.2 == runMaxIntensity (q :: r)) = false :=
        beq_eq_false_iff_ne.mpr (ne_of_lt (lt_of_lt_of_le h hq'))
      have hL : maxByIntensity p (q :: r) = maxByIntensity q r := by
        simp only [maxByIntensity]
        rw [if_pos h]
      simp only [hM, hL, maxByIntensity_eq r q]
      simp [List.find?_cons, hp]
    · have hqp : q.2 ≤ p.2 := not_lt.mp h
      have hL : maxByIntensity p (q :: r) = maxByIntensity p r := by
        simp only [maxByIntensity]
        rw [if_neg h]
      cases r with
      | nil =>
        have hM : runMaxIntensity (p :: q :: []) = p.2 := by
          rw [runMaxIntensity_cons₂]
          exact max_eq_left hqp
        simp only [hM]
        simp [hL, maxByIntensity, List.find?, h]
      | cons s t =>
        have hM : runMaxIntensity (p :: q :: s :: t) = runMaxIntensity (p :: s :: t) := by
          rw [runMaxIntensity_cons₂, runMaxIntensity_cons₂, runMaxIntensity_cons₂,
            ← max_assoc, max_eq_left hqp]
        have IH := maxByIntensity_eq (s :: t) p
        simp only [hM]
        rw [hL, IH]
        cases hp : (p.2 == runMaxIntensity (p :: s :: t)) with
        | true => simp [List.find?_cons, hp]
        | false =>
          have hq : (q.2 == runMaxIntensity (p :: s :: t)) = false := by
            refine beq_eq_false_iff_ne.mpr (fun hqm => ?_)
            have hpm : p.2 ≤ runMaxIntensity (p :: s :: t) := runMax_ge_head (s :: t) p
            have hpe : p.2 = runMaxIntensity (p :: s :: t) :=
              le_antisymm hpm (hqm ▸ hqp)
            simp [hpe] at hp
          simp [List.find?_cons, hp, hq]

/-- A single peak collapses to itself. -/
theorem specCluster_singleton (p : Peak) : specCluster [p] = p := by
  cases p with
  | mk a b => simp [specCluster]

/-- The emission step of the implementation agrees with the spec-side run
collapse on nonempty runs. -/
theorem centroidCluster_eq_spec : ∀ (c : List Peak), c ≠ [] →
    centroidCluster c = specCluster c := by
  intro c hc
  cases c with
  | nil => exact absurd rfl hc
  | cons p ps =>
    have hall : ((p :: ps).all fun q => q.2 == ((p :: ps).headD (0, 0)).2) =
        (ps.all fun q => q.2 == p.2) := by
      simp [List.all_cons]
    by_cases h : (ps.all fun q => q.2 == p.2) = true
    · simp [centroidCluster, specCluster, hall, h]
    · have h' : (ps.all fun q => q.2 == p.2) = false := by
        exact Bool.not_eq_true _ ▸ (by simpa using h)
      simp [centroidCluster, specCluster, hall, h', maxByIntensity_eq ps p]

/-- The fueled centroid loop computes the run collapse whenever the fuel
covers the list length. -/
theorem centroidGo_eq_runs : ∀ (fuel : Nat) (l : List Peak), l.length ≤ fuel →
    centroidGo fuel l = centroidRuns l
  | _, [], _ => by simp [centroidGo, centroidRuns, chunkRuns]
  | fuel, [p], _ => by
    simp [centroidGo, centroidRuns, chunkRuns, chunkCons, specCluster_singleton]
  | fuel + 1, p :: q :: r, h => by
    by_cases hg : q.1 - p.1 > gapLimit
    · have IH := centroidGo_eq_runs fuel (q :: r) (by
        simp only [List.length_cons] at h ⊢
        omega)
      have hrun : chunkRuns (p :: q :: r) = [p] :: chunkRuns (q :: r) := by
        show chunkCons p (q :: r) (chunkRuns (q :: r)) = [p] :: chunkRuns (q :: r)
        obtain ⟨c, cs, hc⟩ := chunkRuns_cons q r
        rw [hc]
        simp only [chunkCons, if_neg (not_le.mpr hg)]
      have hL : centroidGo (fuel + 1) (p :: q :: r) = p :: centroidGo fuel (q :: r) := by
        simp only [centroidGo]
        rw [if_pos hg]
      rw [hL, IH]
      simp only [centroidRuns, hrun, List.map_cons, specCluster_singleton]
    · have hlen : (clusterLoop q r).2.length ≤ fuel := by
        have h1 := clusterLoop_snd_length r q
        simp only [List.length_cons] at h
        omega
      have IH := centroidGo_eq_runs fuel (clusterLoop q r).2 hlen
      have hrun : chunkRuns (p :: q :: r) =
          (p :: (clusterLoop q r).1) :: chunkRuns (clusterLoop q r).2 := by
        show chunkCons p (q :: r) (chunkRuns (q :: r)) = _
        rw [clusterLoop_chunk r q]
        simp only [chunkCons, if_pos (not_lt.mp hg)]
      have hemit : centroidCluster (p :: (clusterLoop q r).1) =
          specCluster (p :: (clusterLoop q r).1) :=
        centroidCluster_eq_spec _ (by simp)
      have hL : centroidGo (fuel + 1) (p :: q :: r) =
          centroidCluster (p :: (clusterLoop q r).1) :: centroidGo fuel (clusterLoop q r).2 := by
        simp only [centroidGo]
        rw [if_neg hg]
      rw [hL, IH, hemit]
      simp only [centroidRuns, hrun, List.map_cons]

/-- The centroid pass is exactly the run collapse. -/
theorem centroidList_eq_runs (l : List Peak) : centroidList l = centroidRuns l :=
  centroidGo_eq_runs l.length l le_rfl

/-! ### Lemmas: gaps and sortedness of the centroided output -/

/-- The default value of getLastD is irrelevant on a nonempty list. -/
theorem getLastD_indep (x : Peak) (xs : List Peak) (a b : Peak) :
    (x :: xs).getLastD a = (x :: xs).getLastD b := by
  rw [List.getLastD_cons, List.getLastD_cons]

/-- Flattening the run partition recovers the peak list. -/
theorem chunkRuns_flatten : ∀ (l : List Peak), (chunkRuns l).flatten = l
  | [] => rfl
  | p :: rest => by
    cases rest with
    | nil => rfl
    | cons q rs =>
      have IH := chunkRuns_flatten (q :: rs)
      obtain ⟨c, cs, hc⟩ := chunkRuns_cons q rs
      show (chunkCons p (q :: rs) (chunkRuns (q :: rs))).flatten = p :: q :: rs
      rw [hc] at IH ⊢
      by_cases hg : q.1 - p.1 ≤ gapLimit
      · simp only [chunkCons, if_pos hg]
        simpa using IH
      · simp only [chunkCons, if_neg hg]
        simpa using IH

/-- Every run in the partition is nonempty. -/
theorem chunkRuns_ne_nil : ∀ (l : List Peak), ∀ c ∈ chunkRuns l, c ≠ []
  | [] => by simp [chunkRuns]
  | p :: rest => by
    cases rest with
    | nil => simp [chunkRuns, chunkCons]
    | cons q rs =>
      intro c hc
      have IH := chunkRuns_ne_nil (q :: rs)
      obtain ⟨c0, cs0, h0⟩ := chunkRuns_cons q rs
      rw [h0] at IH
      have hc' : c ∈ chunkCons p (q :: rs) ((q :: c0) :: cs0) := by
        have : chunkRuns (p :: q :: rs) = chunkCons p (q :: rs) (chunkRuns (q :: rs)) := rfl
        rw [this, h0] at hc
        exact hc
      by_cases hg : q.1 - p.1 ≤ gapLimit
      · simp only [chunkCons, if_pos hg, List.mem_cons] at hc'
        rcases hc' with h | h
        · simp [h]
        · exact IH c (List.mem_cons_of_mem _ h)
      · simp only [chunkCons, if_neg hg, List.mem_cons] at hc'
        rcases hc' with h | h
        · simp [h]
        · exact IH c (by simpa using h)

/-- Adjacent runs of the partition are separated by the threshold. -/
theorem chunkRuns_chain : ∀ (l : List Peak), List.Chain' runBoundary (chunkRuns l)
  | [] => List.chain'_nil
  | p :: rest => by
    cases rest with
    | nil => simp [chunkRuns, chunkCons]
    | cons q rs =>
      have IH := chunkRuns_chain (q :: rs)
      obtain ⟨c0, cs0, h0⟩ := chunkRuns_cons q rs
      rw [h0] at IH
      show List.Chain' runBoundary (chunkCons p (q :: rs) (chunkRuns (q :: rs)))
      rw [h0]
      by_cases hg : q.1 - p.1 ≤ gapLimit
      · simp only [chunkCons, if_pos hg]
        rw [List.chain'_cons'] at IH ⊢
        refine ⟨fun y hy => ?_, IH.2⟩
        have hb := IH.1 y hy
        unfold runBoundary at hb ⊢
        rwa [getLastD_indep p (q :: c0) (0, 0) (0, 0), List.getLastD_cons]
      · simp only [chunkCons, if_neg hg]
        rw [List.chain'_cons]
        refine ⟨?_, IH⟩
        unfold runBoundary
        simpa using not_le.mp hg

/-- In a sorted nonempty list the head has the least mz. -/
theorem sorted_head_le (p : Peak) (ps : List Peak) (h : mzSorted (p :: ps)) :
    ∀ x ∈ p :: ps, p.1 ≤ x.1 := by
  intro x hx
  rcases List.mem_cons.mp hx with rfl | hx
  · exact le_refl _
  · exact (List.pairwise_cons.mp h).1 x hx

/-- The last element (with default) of a nonempty list is a member. -/
theorem getLastD_mem : ∀ (l : List Peak) (d : Peak), l ≠ [] → l.getLastD d ∈ l
  | [], _, h => absurd rfl h
  | [x], d, _ => by simp
  | x :: y :: t, d, _ => by
    rw [List.getLastD_cons]
    exact List.mem_cons_of_mem _ (getLastD_mem (y :: t) x (by simp))

/-- In a sorted list every mz is at most the last one. -/
theorem sorted_le_getLastD : ∀ (l : List Peak), mzSorted l →
    ∀ x ∈ l, x.1 ≤ (l.getLastD (0, 0)).1
  | [], _, x, hx => by simp at hx
  | p :: ps, h, x, hx => by
    cases ps with
    | nil =>
      rcases List.mem_cons.mp hx with rfl | hx
      · simp
      · simp at hx
    | cons q t =>
      have hs : mzSorted (q :: t) := (List.pairwise_cons.mp h).2
      rw [List.getLastD_cons]
      have hlast : (q :: t).getLastD p = (q :: t).getLastD (0, 0) :=
        getLastD_indep q t p (0, 0)
      rw [hlast]
      rcases List.mem_cons.mp hx with rfl | hx
      · exact (List.pairwise_cons.mp h).1 _ (getLastD_mem (q :: t) (0, 0) (by simp))
      · exact sorted_le_getLastD (q :: t) hs x hx

/-- The run maximum is attained by some member. -/
theorem runMax_mem : ∀ (c : List Peak), c ≠ [] → ∃ x ∈ c, x.2 = runMaxIntensity c
  | [], h => absurd rfl h
  | [p], _ => ⟨p, by simp, rfl⟩
  | p :: q :: r, _ => by
    obtain ⟨x, hx, hx2⟩ := runMax_mem (q :: r) (by simp)
    rw [runMaxIntensity_cons₂]
    rcases le_total p.2 (runMaxIntensity (q :: r)) with h | h
    · exact ⟨x, List.mem_cons_of_mem _ hx, by rw [max_eq_right h, hx2]⟩
    · exact ⟨p, by simp, by rw [max_eq_left h]⟩

/-- The collapsed peak of a sorted nonempty run has its mz between the run
head and the run last. -/
theorem specCluster_bounds (c : List Peak) (hne : c ≠ []) (hs : mzSorted c) :
    (c.headD (0, 0)).1 ≤ (specCluster c).1 ∧
      (specCluster c).1 ≤ (c.getLastD (0, 0)).1 := by
  cases c with
  | nil => exact absurd rfl hne
  | cons p ps =>
    have hmem : ∀ x ∈ p :: ps, p.1 ≤ x.1 ∧ x.1 ≤ ((p :: ps).getLastD (0, 0)).1 :=
      fun x hx => ⟨sorted_head_le p ps hs x hx, sorted_le_getLastD (p :: ps) hs x hx⟩
    unfold specCluster
    by_cases hall : ((p :: ps).all fun q => q.2 == ((p :: ps).headD (0, 0)).2) = true
    · rw [if_pos hall]
      have hn : (0 : ℚ) < (((p :: ps).length : ℚ)) := by
        have : 0 < (p :: ps).length := by simp
        exact_mod_cast this
      have hlow : ((p :: ps).length : ℚ) * p.1 ≤ ((p :: ps).map Prod.fst).sum := by
        have := List.card_nsmul_le_sum ((p :: ps).map Prod.fst) p.1
          (fun y hy => by
            obtain ⟨x, hx, rfl⟩ := List.mem_map.mp hy
            exact (hmem x hx).1)
        simpa [nsmul_eq_mul] using this
      have hhigh : ((p :: ps).map Prod.fst).sum ≤
          ((p :: ps).length : ℚ) * ((p :: ps).getLastD (0, 0)).1 := by
        have := List.sum_le_card_nsmul ((p :: ps).map Prod.fst)
          ((p :: ps).getLastD (0, 0)).1
          (fun y hy => by
            obtain ⟨x, hx, rfl⟩ := List.mem_map.mp hy
            exact (hmem x hx).2)
        simpa [nsmul_eq_mul] using this
      constructor
      · show p.1 ≤ (List.map Prod.fst (p :: ps)).sum / (((p :: ps).length : ℚ))
        rw [le_div_iff₀ hn]
        calc p.1 * (((p :: ps).length : ℚ)) = (((p :: ps).length : ℚ)) * p.1 := mul_comm _ _
          _ ≤ _ := hlow
      · show (List.map Prod.fst (p :: ps)).sum / (((p :: ps).length : ℚ)) ≤
          ((p :: ps).getLastD (0, 0)).1
        rw [div_le_iff₀ hn]
        calc (List.map Prod.fst (p :: ps)).sum ≤
            (((p :: ps).length : ℚ)) * ((p :: ps).getLastD (0, 0)).1 := hhigh
          _ = _ := mul_comm _ _
    · rw [if_neg hall]
      cases hf : (p :: ps).find? (fun q => q.2 == runMaxIntensity (p :: ps)) with
      | none =>
        obtain ⟨x, hx, hx2⟩ := runMax_mem (p :: ps) (by simp)
        have := List.find?_eq_none.mp hf x hx
        simp [hx2] at this
      | some x =>
        have hx := List.mem_of_find?_eq_some hf
        simpa using hmem x hx

/-- Collapsing the runs of a sorted partition leaves strictly separated
peaks. -/
theorem chain_bigGap_map : ∀ (L : List (List Peak)),
    (∀ c ∈ L, c ≠ [] ∧ mzSorted c) → List.Chain' runBoundary L →
    List.Chain' bigGap (L.map specCluster)
  | [], _, _ => List.chain'_nil
  | [c], _, _ => by simp
  | c :: d :: L, hmem, hch => by
    rw [List.map_cons, List.map_cons, List.chain'_cons]
    have hc := hmem c (by simp)
    have hd := hmem d (by simp)
    have hb : runBoundary c d := (List.chain'_cons.mp hch).1
    refine ⟨?_, ?_⟩
    · have h1 := (specCluster_bounds c hc.1 hc.2).2
      have h2 := (specCluster_bounds d hd.1 hd.2).1
      unfold runBoundary at hb
      unfold bigGap
      linarith
    · have := chain_bigGap_map (d :: L)
        (fun x hx => hmem x (List.mem_cons_of_mem _ hx))
        (List.chain'_cons.mp hch).2
      simpa using this

/-- After centroiding a sorted list, adjacent peaks are separated by more
than the threshold. -/
theorem centroidRuns_bigGap (l : List Peak) (hs : mzSorted l) :
    List.Chain' bigGap (centroidRuns l) := by
  apply chain_bigGap_map
  · intro c hc
    refine ⟨chunkRuns_ne_nil l c hc, ?_⟩
    have hsub : c.Sublist l := by
      have := List.sublist_flatten_of_mem hc
      rwa [chunkRuns_flatten] at this
    exact List.Pairwise.sublist hsub hs
  · exact chunkRuns_chain l

/-- The centroid pass does not change a list whose adjacent gaps all exceed
the threshold. -/
theorem centroidGo_id_of_bigGap : ∀ (fuel : Nat) (l : List Peak),
    l.length ≤ fuel → List.Chain' bigGap l → centroidGo fuel l = l
  | _, [], _, _ => by simp [centroidGo]
  | fuel, [p], _, _ => by simp [centroidGo]
  | fuel + 1, p :: q :: r, h, hch => by
    have hg : q.1 - p.1 > gapLimit := (List.chain'_cons.mp hch).1
    have hL : centroidGo (fuel + 1) (p :: q :: r) = p :: centroidGo fuel (q :: r) := by
      simp only [centroidGo]
      rw [if_pos hg]
    rw [hL, centroidGo_id_of_bigGap fuel (q :: r)
      (by simp only [List.length_cons] at h ⊢; omega) (List.chain'_cons.mp hch).2]

/-- Strictly separated peaks are in particular sorted by mz. -/
theorem chain_bigGap_sorted (l : List Peak) (h : List.Chain' bigGap l) :
    mzSorted l := by
  have hpos : (0 : ℚ) < gapLimit := by norm_num [gapLimit]
  have h' : List.Chain' mzLe l := h.imp (fun a b hab => by
    unfold bigGap at hab
    unfold mzLe
    linarith)
  exact List.chain'_iff_pairwise.mp h'

/-- Centroiding preserves the sorted-by-mz invariant. -/
theorem centroid_sorted (s : Spectrum) (hs : mzSorted s.peaks) :
    mzSorted s.centroid.peaks := by
  unfold Spectrum.centroid
  by_cases h : s.peaks.length ≤ 1
  · rwa [if_pos h]
  · rw [if_neg h]
    show mzSorted (centroidList s.peaks)
    rw [centroidList_eq_runs]
    exact chain_bigGap_sorted _ (centroidRuns_bigGap s.peaks hs)

/-- Short spectra are returned unchanged by centroid. -/
theorem centroid_eq_self (s : Spectrum) (h : s.peaks.length ≤ 1) :
    s.centroid = s := by
  unfold Spectrum.centroid
  rw [if_pos h]

/-- On longer spectra centroid replaces the peaks by the centroid pass. -/
theorem centroid_peaks_of_long (s : Spectrum) (h : ¬ s.peaks.length ≤ 1) :
    s.centroid.peaks = centroidList s.peaks := by
  unfold Spectrum.centroid
  rw [if_neg h]

/-- The constructor sort yields a sorted list. -/
theorem mzSort_sorted (l : List Peak) : mzSorted (mzSort l) :=
  List.sorted_insertionSort mzLe l

/-! ### Lemmas: the per-window top-k selection of denoise -/

/-- The maximum of a nonempty list of naturals is attained. -/
theorem foldr_max_mem : ∀ (l : List Nat), l ≠ [] → l.foldr max 0 ∈ l
  | [], h => absurd rfl h
  | [x], _ => by simp
  | x :: y :: t, _ => by
    have hfold : (x :: y :: t).foldr max 0 = max x ((y :: t).foldr max 0) := rfl
    rcases le_total x ((y :: t).foldr max 0) with h | h
    · rw [hfold, max_eq_right h]
      exact List.mem_cons_of_mem _ (foldr_max_mem (y :: t) (by simp))
    · rw [hfold, max_eq_left h]
      exact List.mem_cons_self x _

/-- Every member is at most the folded maximum. -/
theorem le_foldr_max : ∀ (l : List Nat), ∀ x ∈ l, x ≤ l.foldr max 0
  | [], x, hx => by simp at hx
  | y :: t, x, hx => by
    rcases List.mem_cons.mp hx with rfl | hx
    · exact le_max_left _ _
    · exact le_trans (le_foldr_max t x hx) (le_max_right _ _)

/-- Entries strictly before the first occurrence differ from the sought
value. -/
theorem get_ne_of_lt_indexOf : ∀ (l : List Nat) (a j : Nat)
    (hj : j < l.length), j < l.indexOf a → l.get ⟨j, hj⟩ ≠ a
  | [], _, _, hj, _ => by simp at hj
  | x :: xs, a, j, hj, hlt => by
    by_cases hx : x = a
    · rw [List.indexOf_cons, hx] at hlt
      simp at hlt
    · rw [List.indexOf_cons] at hlt
      have hxa : (x == a) = false := beq_eq_false_iff_ne.mpr hx
      rw [hxa] at hlt
      simp only [cond_false] at hlt
      cases j with
      | zero => simpa using hx
      | succ j =>
        have hj' : j < xs.length := by simpa using hj
        have := get_ne_of_lt_indexOf xs a j hj' (by omega)
        simpa using this

/-- The total-and-transitive ranking used for the in-window sort. -/
theorem intensityRank_total (peaks : List Peak) :
    ∀ i j, intensityRank peaks i j ∨ intensityRank peaks j i := by
  intro i j
  rcases lt_trichotomy (intensityAt peaks i) (intensityAt peaks j) with h | h | h
  · exact Or.inr (Or.inl h)
  · rcases le_total i j with hij | hij
    · exact Or.inl (Or.inr ⟨h, hij⟩)
    · exact Or.inr (Or.inr ⟨h.symm, hij⟩)
  · exact Or.inl (Or.inl h)

/-- Transitivity of the in-window ranking. -/
theorem intensityRank_trans (peaks : List Peak) :
    ∀ i j k, intensityRank peaks i j → intensityRank peaks j k →
      intensityRank peaks i k := by
  intro i j k hij hjk
  rcases hij with h1 | ⟨h1, h1'⟩
  · rcases hjk with h2 | ⟨h2, _⟩
    · exact Or.inl (lt_trans h2 h1)
    · exact Or.inl (h2 ▸ h1)
  · rcases hjk with h2 | ⟨h2, h2'⟩
    · exact Or.inl (h1 ▸ h2)
    · exact Or.inr ⟨h1.trans h2, le_trans h1' h2'⟩

/-! ### Lemmas: the formula scanner on well-formed token sequences -/

/-- takeWhile walks through a block of satisfying characters. -/
theorem takeWhile_append_all (p : Char → Bool) :
    ∀ (l r : List Char), (∀ a ∈ l, p a = true) →
      (l ++ r).takeWhile p = l ++ r.takeWhile p
  | [], r, _ => by simp
  | a :: l, r, h => by
    have ha := h a (by simp)
    simp only [List.cons_append, List.takeWhile_cons, ha, if_true]
    rw [takeWhile_append_all p l r (fun x hx => h x (by simp [hx]))]

/-- dropWhile skips a block of satisfying characters. -/
theorem dropWhile_append_all (p : Char → Bool) :
    ∀ (l r : List Char), (∀ a ∈ l, p a = true) →
      (l ++ r).dropWhile p = r.dropWhile p
  | [], r, _ => by simp
  | a :: l, r, h => by
    have ha := h a (by simp)
    simp only [List.cons_append, List.dropWhile_cons, ha, if_true]
    exact dropWhile_append_all p l r (fun x hx => h x (by simp [hx]))

/-- The remainders a token may be followed by: end of string or a space. -/
def restOk (rest : List Char) : Prop := rest = [] ∨ ∃ more, rest = ' ' :: more

/-- A token separator stops every group of the scanner. -/
theorem restOk_facts (rest : List Char) (h : restOk rest) :
    rest.takeWhile isWordChar = [] ∧ rest.dropWhile isWordChar = rest ∧
      rest.takeWhile isCountChar = [] ∧ rest.dropWhile isCountChar = rest ∧
      dropParenOpen rest = rest ∧ dropParenClose rest = rest := by
  have hw : isWordChar ' ' = false := by decide
  have hc : isCountChar ' ' = false := by decide
  rcases h with rfl | ⟨more, rfl⟩
  · exact ⟨rfl, rfl, rfl, rfl, rfl, rfl⟩
  · refine ⟨?_, ?_, ?_, ?_, rfl, rfl⟩
    · simp [List.takeWhile_cons, hw]
    · simp [List.dropWhile_cons, hw]
    · simp [List.takeWhile_cons, hc]
    · simp [List.dropWhile_cons, hc]

/-- Each scanner step consumes at least the head character. -/
theorem matchRest_length_le (cs : List Char) : (matchRest cs).length ≤ cs.length := by
  unfold matchRest
  have h1 : (cs.dropWhile isWordChar).length ≤ cs.length :=
    (List.dropWhile_sublist _).length_le
  have h2 : ∀ (l : List Char), (dropParenOpen l).length ≤ l.length := by
    intro l
    unfold dropParenOpen
    split
    · simp
    · exact le_refl _
  have h3 : ∀ (l : List Char), (dropParenClose l).length ≤ l.length := by
    intro l
    unfold dropParenClose
    split
    · simp
    · exact le_refl _
  calc (dropParenClose ((dropParenOpen (cs.dropWhile isWordChar)).dropWhile isCountChar)).length
      ≤ ((dropParenOpen (cs.dropWhile isWordChar)).dropWhile isCountChar).length := h3 _
    _ ≤ (dropParenOpen (cs.dropWhile isWordChar)).length :=
        (List.dropWhile_sublist _).length_le
    _ ≤ (cs.dropWhile isWordChar).length := h2 _
    _ ≤ cs.length := h1

/-- The scanner result does not depend on the fuel, once the fuel covers the
input length. -/
theorem scanGo_stable : ∀ (f1 : Nat) (cs : List Char) (f2 : Nat),
    cs.length ≤ f1 → cs.length ≤ f2 → scanGo f1 cs = scanGo f2 cs := by
  intro f1
  induction f1 with
  | zero =>
    intro cs f2 h1 _
    have hcs : cs = [] := List.eq_nil_of_length_eq_zero (Nat.le_zero.mp h1)
    subst hcs
    cases f2 with
    | zero => rfl
    | succ _ => rfl
  | succ f ih =>
    intro cs f2 h1 h2
    cases cs with
    | nil =>
      cases f2 with
      | zero => rfl
      | succ _ => rfl
    | cons c cs' =>
      cases f2 with
      | zero => simp at h2
      | succ f2' =>
        simp only [scanGo]
        by_cases hc : isWordChar c = true
        · simp only [hc, if_true]
          have hr : (matchRest cs').length ≤ cs'.length := matchRest_length_le cs'
          simp only [List.length_cons] at h1 h2
          rw [ih (matchRest cs') f2' (by omega) (by omega)]
        · simp only [Bool.not_eq_true] at hc
          simp only [hc, Bool.false_eq_true, if_false]
          simp only [List.length_cons] at h1 h2
          rw [ih cs' f2' (by omega) (by omega)]

/-- A well-formed count group is nonempty and consists of [0-9-] characters
only. -/
theorem wfCount_facts (ds : List Char) (h : wfCountB ds = true) :
    ds ≠ [] ∧ ∀ a ∈ ds, isCountChar a = true := by
  have hdig : ∀ (l : List Char), l.all Char.isDigit = true →
      ∀ a ∈ l, isCountChar a = true := by
    intro l hl a ha
    unfold isCountChar
    rw [List.all_eq_true.mp hl a ha]
    rfl
  unfold wfCountB at h
  split at h
  · rename_i tail
    rw [Bool.and_eq_true] at h
    obtain ⟨-, hall⟩ := h
    refine ⟨by simp, ?_⟩
    intro a ha
    rcases List.mem_cons.mp ha with rfl | ha
    · decide
    · exact hdig tail hall a ha
  · rw [Bool.and_eq_true] at h
    obtain ⟨hne, hall⟩ := h
    refine ⟨?_, hdig _ hall⟩
    intro hnil
    rw [hnil] at hne
    simp at hne

/-- Scanning a well-formed token followed by a separator yields the token
itself and continues at the remainder. -/
theorem scanGo_token (t : String × Option String) (rest : List Char) (fuel : Nat)
    (hwf : wfToken t) (hrest : restOk rest)
    (hfuel : (tokenChars t ++ rest).length ≤ fuel) :
    scanGo fuel (tokenChars t ++ rest) = t :: scanGo rest.length rest := by
  obtain ⟨s, copt⟩ := t
  obtain ⟨hs, hall, hcnt⟩ := hwf
  obtain ⟨ch, stail, hsd⟩ := List.exists_cons_of_ne_nil hs
  obtain ⟨hr1, hr2, hr3, hr4, hr5, hr6⟩ := restOk_facts rest hrest
  have hstail : ∀ a ∈ stail, isWordChar a = true := fun a ha =>
    hall a (by rw [hsd]; exact List.mem_cons_of_mem _ ha)
  have hch : isWordChar ch = true := hall ch (by rw [hsd]; simp)
  cases copt with
  | none =>
    have hsplit : tokenChars (s, none) ++ rest = ch :: (stail ++ rest) := by
      simp [tokenChars, hsd]
    cases fuel with
    | zero =>
      rw [hsplit] at hfuel
      simp at hfuel
    | succ f =>
      rw [hsplit]
      simp only [scanGo, hch, if_true]
      have hdw : (stail ++ rest).dropWhile isWordChar = rest := by
        rw [dropWhile_append_all _ _ _ hstail, hr2]
      have h1 : matchSym ch (stail ++ rest) = s.data := by
        unfold matchSym
        rw [takeWhile_append_all _ _ _ hstail, hr1, List.append_nil, hsd]
      have h2 : matchCount (stail ++ rest) = none := by
        unfold matchCount
        rw [hdw, hr5, hr3]
        rfl
      have h3 : matchRest (stail ++ rest) = rest := by
        unfold matchRest
        rw [hdw, hr5, hr4, hr6]
      rw [h1, h2, h3]
      have hflen : rest.length ≤ f := by
        rw [hsplit] at hfuel
        simp only [List.length_cons, List.length_append] at hfuel
        omega
      rw [scanGo_stable f rest rest.length hflen le_rfl]
  | some cnt =>
    obtain ⟨hcne, hccount⟩ := wfCount_facts cnt.data hcnt
    have hsplit : tokenChars (s, some cnt) ++ rest =
        ch :: (stail ++ '(' :: (cnt.data ++ ')' :: rest)) := by
      simp [tokenChars, hsd]
    cases fuel with
    | zero =>
      rw [hsplit] at hfuel
      simp at hfuel
    | succ f =>
      rw [hsplit]
      simp only [scanGo, hch, if_true]
      have hwparen : isWordChar '(' = false := by decide
      have hdw : (stail ++ '(' :: (cnt.data ++ ')' :: rest)).dropWhile isWordChar =
          '(' :: (cnt.data ++ ')' :: rest) := by
        rw [dropWhile_append_all _ _ _ hstail]
        simp [List.dropWhile_cons, hwparen]
      have h1 : matchSym ch (stail ++ '(' :: (cnt.data ++ ')' :: rest)) = s.data := by
        unfold matchSym
        rw [takeWhile_append_all _ _ _ hstail]
        simp [List.takeWhile_cons, hwparen, hsd]
      have hcparen : isCountChar ')' = false := by decide
      have htc : (cnt.data ++ ')' :: rest).takeWhile isCountChar = cnt.data := by
        rw [takeWhile_append_all _ _ _ hccount]
        simp [List.takeWhile_cons, hcparen]
      have hdc : (cnt.data ++ ')' :: rest).dropWhile isCountChar = ')' :: rest := by
        rw [dropWhile_append_all _ _ _ hccount]
        simp [List.dropWhile_cons, hcparen]
      have h2 : matchCount (stail ++ '(' :: (cnt.data ++ ')' :: rest)) = some cnt := by
        unfold matchCount
        rw [hdw]
        show (if (dropParenOpen ('(' :: (cnt.data ++ ')' :: rest))).takeWhile isCountChar
            |>.isEmpty then none else _) = _
        have hop : dropParenOpen ('(' :: (cnt.data ++ ')' :: rest)) =
            cnt.data ++ ')' :: rest := rfl
        rw [hop, htc]
        have : cnt.data.isEmpty = false := by
          cases hd : cnt.data with
          | nil => exact absurd hd hcne
          | cons _ _ => rfl
        simp [this]
      have h3 : matchRest (stail ++ '(' :: (cnt.data ++ ')' :: rest)) = rest := by
        unfold matchRest
        rw [hdw]
        have hop : dropParenOpen ('(' :: (cnt.data ++ ')' :: rest)) =
            cnt.data ++ ')' :: rest := rfl
        rw [hop, hdc]
        rfl
      rw [h1, h2, h3]
      have hflen : rest.length ≤ f := by
        rw [hsplit] at hfuel
        simp only [List.length_cons, List.length_append] at hfuel
        omega
      rw [scanGo_stable f rest rest.length hflen le_rfl]

/-- Scanning a space-separated sequence of well-formed tokens returns
exactly those tokens. -/
theorem scanGo_joinTokens : ∀ (ts : List (String × Option String)),
    (∀ t ∈ ts, wfToken t) →
    scanGo (joinTokens ts).length (joinTokens ts) = ts
  | [], _ => rfl
  | [t], h => by
    have := scanGo_token t [] (tokenChars t).length (h t (by simp))
      (Or.inl rfl) (by simp [joinTokens])
    simpa [joinTokens] using this
  | t :: t' :: ts, h => by
    have hjoin : joinTokens (t :: t' :: ts) =
        tokenChars t ++ ' ' :: joinTokens (t' :: ts) := rfl
    rw [hjoin]
    rw [scanGo_token t (' ' :: joinTokens (t' :: ts)) _ (h t (by simp))
      (Or.inr ⟨_, rfl⟩) le_rfl]
    have hsp : scanGo (' ' :: joinTokens (t' :: ts)).length
        (' ' :: joinTokens (t' :: ts)) =
        scanGo (joinTokens (t' :: ts)).length (joinTokens (t' :: ts)) := by
      have hw : isWordChar ' ' = false := by decide
      simp only [List.length_cons, scanGo, hw, Bool.false_eq_true, if_false]
    rw [hsp, scanGo_joinTokens (t' :: ts) (fun x hx => h x (List.mem_cons_of_mem _ hx))]

/-- Python int() succeeds on every count group accepted by wfCountB —
an optionally signed nonempty digit run — and returns its signed value. -/
theorem pyIntOfString_wfCount (c : String) (h : wfCountB c.data = true) :
    pyIntOfString c = some (countValue c.data) := by
  obtain ⟨hne, -⟩ := wfCount_facts c.data h
  obtain ⟨x, xs, hd⟩ := List.exists_cons_of_ne_nil hne
  rw [hd] at h
  by_cases hx : x = '-'
  · subst hx
    have h' : (!xs.isEmpty && xs.all Char.isDigit) = true := h
    rw [Bool.and_eq_true] at h'
    obtain ⟨hxe, hxd⟩ := h'
    have hxne : xs ≠ [] := by
      intro hnil
      rw [hnil] at hxe
      simp at hxe
    have hv : countValue c.data = -((natOfDigits xs : Int)) := by
      rw [hd]
      exact rfl
    unfold pyIntOfString
    rw [hv, hd]
    show (if xs ≠ [] ∧ xs.all Char.isDigit then some (-(natOfDigits xs : Int))
        else none) = some (-(natOfDigits xs : Int))
    rw [if_pos ⟨hxne, hxd⟩]
  · have h' : (!(x :: xs).isEmpty && (x :: xs).all Char.isDigit) = true := by
      unfold wfCountB at h
      split at h
      · rename_i tail heq
        injection heq with h1 _
        exact absurd h1 hx
      · exact h
    rw [Bool.and_eq_true] at h'
    obtain ⟨-, hxd⟩ := h'
    have hv : countValue c.data = ((natOfDigits (x :: xs) : Int)) := by
      rw [hd]
      unfold countValue
      split
      · rename_i tail heq
        injection heq with h1 _
        exact absurd h1 hx
      · rfl
    unfold pyIntOfString
    rw [hv, hd]
    split
    · rename_i heq
      exfalso
      injection heq with h1 _
      exact hx h1
    · rw [if_pos ⟨by simp, hxd⟩]

/-- The match-to-binding step of get_formula succeeds on well-formed tokens
and produces the claimed bindings. -/
theorem mapM_tokenValue : ∀ (ts : List (String × Option String)),
    (∀ t ∈ ts, wfToken t) →
    (ts.mapM (fun (kv : String × Option String) =>
      match kv.2 with
      | none => some (kv.1, 1)
      | some v => (pyIntOfString v).map (fun n => (kv.1, n)))) =
      some (ts.map tokenValue)
  | [], _ => rfl
  | t :: ts, h => by
    have IH := mapM_tokenValue ts (fun x hx => h x (List.mem_cons_of_mem _ hx))
    obtain ⟨s, copt⟩ := t
    cases copt with
    | none =>
      simp only [List.mapM_cons, IH]
      rfl
    | some cnt =>
      have hw := h (s, some cnt) (by simp)
      obtain ⟨-, -, hcnt⟩ := hw
      simp only [List.mapM_cons, IH, pyIntOfString_wfCount cnt hcnt]
      rfl

/-! ### Claim theorems -/

/-- C2: in every denoise window with at least two candidate peaks, the
retained indices are exactly a prefix of the descending-intensity ranking of
the candidates; the prefix length k lies between 1 and min(window size,
max_peaks_per_window), the retained count never exceeds
max_peaks_per_window, no admissible prefix has more annotated peaks, and k
is the smallest admissible length attaining that maximum. -/
theorem claim_window_topk (peaks : List Peak) (assigned : List Bool)
    (maxP startIdx endIdx : Nat) (hmaxP : 1 ≤ maxP)
    (hwin : startIdx + 2 ≤ endIdx) :
    ∃ k, windowSelect peaks assigned maxP startIdx endIdx =
        (rankedWindow peaks startIdx endIdx).take k ∧
      1 ≤ k ∧ k ≤ min (endIdx - startIdx) maxP ∧
      (windowSelect peaks assigned maxP startIdx endIdx).length ≤ maxP ∧
      (rankedWindow peaks startIdx endIdx).Perm
        (List.range' startIdx (endIdx - startIdx)) ∧
      List.Sorted (fun i j => intensityAt peaks j ≤ intensityAt peaks i)
        (rankedWindow peaks startIdx endIdx) ∧
      (∀ j, 1 ≤ j → j ≤ min (endIdx - startIdx) maxP →
        annCount assigned ((rankedWindow peaks startIdx endIdx).take j) ≤
          annCount assigned ((rankedWindow peaks startIdx endIdx).take k)) ∧
      (∀ j, 1 ≤ j → j ≤ min (endIdx - startIdx) maxP →
        annCount assigned ((rankedWindow peaks startIdx endIdx).take k) ≤
          annCount assigned ((rankedWindow peaks startIdx endIdx).take j) → k ≤ j) := by
  haveI htot : IsTotal Nat (intensityRank peaks) := ⟨intensityRank_total peaks⟩
  haveI htr : IsTrans Nat (intensityRank peaks) := ⟨intensityRank_trans peaks⟩
  have hperm : (rankedWindow peaks startIdx endIdx).Perm
      (List.range' startIdx (endIdx - startIdx)) :=
    List.perm_insertionSort _ _
  have hlen : (rankedWindow peaks startIdx endIdx).length = endIdx - startIdx := by
    rw [hperm.length_eq, List.length_range']
  have hsorted : List.Sorted (intensityRank peaks) (rankedWindow peaks startIdx endIdx) :=
    List.sorted_insertionSort _ _
  have hsorted' : List.Sorted (fun i j => intensityAt peaks j ≤ intensityAt peaks i)
      (rankedWindow peaks startIdx endIdx) := by
    refine hsorted.imp (fun hij => ?_)
    rcases hij with h | ⟨h, _⟩
    · exact le_of_lt h
    · exact le_of_eq h.symm
  set ranked := rankedWindow peaks startIdx endIdx with hranked
  set scores := ranked.map (fun i => assigned.getD i false) with hscores
  set kmax := min (scores.length + 1) (maxP + 1) with hkmax
  set sums := (List.range' 1 (kmax - 1)).map (fun k => (scores.take k).count true)
    with hsums
  have hws : windowSelect peaks assigned maxP startIdx endIdx =
      ranked.take (sums.indexOf (sums.foldr max 0) + 1) := rfl
  have hscores_len : scores.length = endIdx - startIdx := by
    rw [hscores, List.length_map, hlen]
  have hsums_len : sums.length = min (endIdx - startIdx) maxP := by
    rw [hsums, List.length_map, List.length_range', hkmax, hscores_len]
    omega
  have hmin1 : 1 ≤ min (endIdx - startIdx) maxP := by
    have : 2 ≤ endIdx - startIdx := by omega
    omega
  have hne : sums ≠ [] := by
    intro hcon
    rw [hcon] at hsums_len
    simp at hsums_len
    omega
  have hMmem : sums.foldr max 0 ∈ sums := foldr_max_mem sums hne
  have hidx : sums.indexOf (sums.foldr max 0) < sums.length :=
    List.indexOf_lt_length.mpr hMmem
  have hgetM : sums.get ⟨sums.indexOf (sums.foldr max 0), hidx⟩ = sums.foldr max 0 :=
    List.indexOf_get hidx
  have hcount : ∀ m, (scores.take m).count true = annCount assigned (ranked.take m) := by
    intro m
    rw [hscores, ← List.map_take]
    unfold annCount
    rw [List.count_eq_countP, List.countP_map]
    refine List.countP_congr (fun x _ => ?_)
    simp [Function.comp]
  have hscore : ∀ t, (ht : t < sums.length) →
      sums.get ⟨t, ht⟩ = annCount assigned (ranked.take (t + 1)) := by
    intro t ht
    have ht' : t < (List.range' 1 (kmax - 1)).length := by
      simpa [hsums, List.length_map] using ht
    have h0 : sums.get ⟨t, ht⟩ =
        (scores.take ((List.range' 1 (kmax - 1)).get ⟨t, ht'⟩)).count true := by
      simp only [List.get_eq_getElem]
      exact List.getElem_map _
    have hrg : (List.range' 1 (kmax - 1)).get ⟨t, ht'⟩ = 1 + 1 * t := by
      simp only [List.get_eq_getElem]
      exact List.getElem_range' _ _
    rw [hrg, hcount] at h0
    have h1t : 1 + 1 * t = t + 1 := by omega
    rw [h1t] at h0
    exact h0
  refine ⟨sums.indexOf (sums.foldr max 0) + 1, hws, le_refl _ |>.trans (by omega), ?_, ?_,
    hperm, hsorted', ?_, ?_⟩
  · omega
  · rw [hws, List.length_take]
    omega
  · intro j hj1 hj2
    have hjt : j - 1 < sums.length := by omega
    have hle := le_foldr_max sums (sums.get ⟨j - 1, hjt⟩) (List.get_mem _ _ hjt)
    have h1 := hscore (j - 1) hjt
    have h2 := hscore (sums.indexOf (sums.foldr max 0)) hidx
    have hM2 : annCount assigned (ranked.take (sums.indexOf (sums.foldr max 0) + 1)) =
        sums.foldr max 0 := by
      rw [← h2, hgetM]
    have hj' : j - 1 + 1 = j := by omega
    rw [hj'] at h1
    rw [← h1, hM2]
    exact hle
  · intro j hj1 hj2 hge
    have hjt : j - 1 < sums.length := by omega
    have hle := le_foldr_max sums (sums.get ⟨j - 1, hjt⟩) (List.get_mem _ _ hjt)
    have h1 := hscore (j - 1) hjt
    have h2 := hscore (sums.indexOf (sums.foldr max 0)) hidx
    have hM2 : annCount assigned (ranked.take (sums.indexOf (sums.foldr max 0) + 1)) =
        sums.foldr max 0 := by
      rw [← h2, hgetM]
    have hj' : j - 1 + 1 = j := by omega
    rw [hj'] at h1
    have hMle : sums.foldr max 0 ≤ sums.get ⟨j - 1, hjt⟩ := by
      rw [h1, ← hM2]
      exact hge
    have heq : sums.get ⟨j - 1, hjt⟩ = sums.foldr max 0 := le_antisymm hle hMle
    by_contra hcon
    have hlt : j - 1 < sums.indexOf (sums.foldr max 0) := by omega
    exact get_ne_of_lt_indexOf sums (sums.foldr max 0) (j - 1) hjt hlt heq

/-- Witness for C2 at a concrete window of two candidates. -/
theorem claim_window_topk_witness :
    ∃ k, windowSelect [(100, 1), (150, 2), (160, 3)] [true, true, true] 8 0 2 =
        (rankedWindow [(100, 1), (150, 2), (160, 3)] 0 2).take k ∧
      1 ≤ k ∧ k ≤ min (2 - 0) 8 ∧
      (windowSelect [(100, 1), (150, 2), (160, 3)] [true, true, true] 8 0 2).length ≤ 8 ∧
      (rankedWindow [(100, 1), (150, 2), (160, 3)] 0 2).Perm (List.range' 0 (2 - 0)) ∧
      List.Sorted (fun i j => intensityAt [(100, 1), (150, 2), (160, 3)] j ≤
        intensityAt [(100, 1), (150, 2), (160, 3)] i)
        (rankedWindow [(100, 1), (150, 2), (160, 3)] 0 2) ∧
      (∀ j, 1 ≤ j → j ≤ min (2 - 0) 8 →
        annCount [true, true, true] ((rankedWindow [(100, 1), (150, 2), (160, 3)] 0 2).take j) ≤
          annCount [true, true, true] ((rankedWindow [(100, 1), (150, 2), (160, 3)] 0 2).take k)) ∧
      (∀ j, 1 ≤ j → j ≤ min (2 - 0) 8 →
        annCount [true, true, true] ((rankedWindow [(100, 1), (150, 2), (160, 3)] 0 2).take k) ≤
          annCount [true, true, true] ((rankedWindow [(100, 1), (150, 2), (160, 3)] 0 2).take j) →
        k ≤ j) :=
  claim_window_topk [(100, 1), (150, 2), (160, 3)] [true, true, true] 8 0 2
    (by decide) (by decide)

/-- C3: on every spectrum of length at least 2, centroid collapses exactly
the maximal runs of consecutive mz gaps at most 0.1 Da, emitting the mean mz
with the common intensity for constant-intensity runs and otherwise the
first maximum-intensity peak; in particular the peaks
[[100.00, 10], [100.05, 5], [250.00, 8]] centroid to
[[100.00, 10], [250.00, 8]]. -/
theorem claim_centroid_run_collapse :
    (∀ s : Spectrum, 2 ≤ s.peaks.length → s.centroid.peaks = centroidRuns s.peaks) ∧
      (Spectrum.centroid
          (mkSpectrum [[100, 10], [2001/20, 5], [250, 8]] 500 none none)).peaks
        = [(100, 10), (250, 8)] := by
  constructor
  · intro s hs
    rw [centroid_peaks_of_long s (by omega)]
    exact centroidList_eq_runs s.peaks
  · decide

/-- Witness for C3 at a concrete three-peak spectrum. -/
theorem claim_centroid_run_collapse_witness :
    (Spectrum.centroid
        (mkSpectrum [[100, 10], [2001/20, 5], [250, 8]] 500 none none)).peaks
      = centroidRuns (mkSpectrum [[100, 10], [2001/20, 5], [250, 8]] 500 none none).peaks :=
  claim_centroid_run_collapse.1 _ (by decide)

/-- C4: centroiding is idempotent on spectra satisfying the sorted-by-mz
invariant: a second centroid pass leaves the peak list unchanged. -/
theorem claim_centroid_idempotent (s : Spectrum) (hs : mzSorted s.peaks) :
    s.centroid.centroid.peaks = s.centroid.peaks := by
  have hchain : List.Chain' bigGap s.centroid.peaks := by
    by_cases h1 : s.peaks.length ≤ 1
    · rw [centroid_eq_self s h1]
      cases hp : s.peaks with
      | nil => simp
      | cons a t =>
        cases t with
        | nil => simp
        | cons b u =>
          rw [hp] at h1
          simp at h1
    · rw [centroid_peaks_of_long s h1, centroidList_eq_runs]
      exact centroidRuns_bigGap s.peaks hs
  by_cases h2 : s.centroid.peaks.length ≤ 1
  · rw [centroid_eq_self s.centroid h2]
  · rw [centroid_peaks_of_long s.centroid h2]
    exact centroidGo_id_of_bigGap _ _ le_rfl hchain

/-- Witness for C4 at a concrete sorted spectrum. -/
theorem claim_centroid_idempotent_witness :
    (mkSpectrum [[100, 10], [2001/20, 5], [250, 8]] 500 none none).centroid.centroid.peaks
      = (mkSpectrum [[100, 10], [2001/20, 5], [250, 8]] 500 none none).centroid.peaks :=
  claim_centroid_idempotent _ (by decide)

/-- C5 (amended): construction, normalize, centroid, remove_itraq and
denoise all leave the peak array sorted ascending by mz (the in-place
operations under the pre-existing invariant); item assignment, however,
performs no re-sort, see the counterexample. -/
theorem claim_sorted_invariant_amended :
    (∀ (pl : List (List ℚ)) (pm : ℚ) (c : Option Int) (rt : Option ℚ),
      mzSorted (mkSpectrum pl pm c rt).peaks) ∧
    (∀ s : Spectrum, mzSorted s.peaks → mzSorted s.normalize.peaks) ∧
    (∀ s : Spectrum, mzSorted s.peaks → mzSorted s.centroid.peaks) ∧
    (∀ (s : Spectrum) (refMasses : List ℚ) (tol : ℚ), mzSorted s.peaks →
      mzSorted (s.remove_itraq refMasses tol).peaks) ∧
    (∀ (s : Spectrum) (assigned : List Bool) (m : Nat),
      mzSorted (s.denoise assigned m).2.peaks) := by
  refine ⟨?_, ?_, ?_, ?_, ?_⟩
  · intro pl pm c rt
    exact mzSort_sorted _
  · intro s hs
    exact List.Pairwise.map _ (fun a b hab => hab) hs
  · exact centroid_sorted
  · intro s refs tol hs
    exact List.Pairwise.sublist (List.filter_sublist _) hs
  · intro s a m
    exact mzSort_sorted _

/-- Witness for C5 at concrete spectra. -/
theorem claim_sorted_invariant_amended_witness :
    mzSorted ((mkSpectrum [[100, 1], [200, 2], [300, 3]] 500 none none).normalize).peaks :=
  claim_sorted_invariant_amended.2.1 _
    (claim_sorted_invariant_amended.1 [[100, 1], [200, 2], [300, 3]] 500 none none)

/-- C5 counterexample: item assignment does not restore the sorted-by-mz
invariant; writing a large mz into slot 0 leaves the array unsorted. -/
theorem claim_sorted_invariant_setitem_cex :
    ¬ mzSorted ((mkSpectrum [[100, 1], [200, 2], [300, 3]] 500 none none).setItem 0
      (400, 1)).peaks := by decide

/-- C6: remove_itraq keeps exactly the peaks whose mz differs from every
reference mass by strictly more than the tolerance, preserving their
relative order. -/
theorem claim_remove_itraq (s : Spectrum) (refMasses : List ℚ) (tol : ℚ) :
    (s.remove_itraq refMasses tol).peaks.Sublist s.peaks ∧
      ∀ p ∈ s.peaks,
        (p ∈ (s.remove_itraq refMasses tol).peaks ↔ ∀ m ∈ refMasses, tol < |p.1 - m|) := by
  constructor
  · exact List.filter_sublist _
  · intro p hp
    simp [Spectrum.remove_itraq, removeItraqPeaks, List.mem_filter, hp, List.all_eq_true]

/-- Witness for C6 at a concrete spectrum: the peak at the reference mass is
removed and a distant peak is kept. -/
theorem claim_remove_itraq_witness :
    (((100 : ℚ), (5 : ℚ)) ∈
        ((mkSpectrum [[100, 5], [114, 10], [200, 3]] 500 none none).remove_itraq
          [114, 115] (gapLimit)).peaks
      ↔ ∀ m ∈ ([114, 115] : List ℚ), (gapLimit : ℚ) < |((100 : ℚ), (5 : ℚ)).1 - m|) :=
  (claim_remove_itraq (mkSpectrum [[100, 5], [114, 10], [200, 3]] 500 none none)
    [114, 115] (gapLimit)).2 (100, 5) (by decide)

/-- C1 (code behaviour at the failing input): on the spectrum with peaks
(100, 1), (150, 2), (160, 3), all annotated, the single 100 Da window scan
ends at index npeaks - 1 and the candidate range excludes the final peak, so
denoise retains only indices 1 and 0 — the highest-mz peak, index 2, is
never considered, contradicting the claim that every peak is a candidate in
exactly one window. -/
theorem claim_denoise_drops_last_peak :
    (Spectrum.denoise (mkSpectrum [[100, 1], [150, 2], [160, 3]] 500 none none)
      [true, true, true] 8).1 = [1, 0] := by decide

/-- C9: a peak array whose first dimension is 2 is transposed by the
constructor; in particular a two-peak spectrum given as rows
[mz1, i1], [mz2, i2] is read with (mz1, mz2) as its first peak. -/
theorem claim_constructor_transpose :
    (∀ (pl : List (List ℚ)) (pm : ℚ) (c : Option Int) (rt : Option ℚ),
      pl.length = 2 →
      (mkSpectrum pl pm c rt).peaks = mzSort (pl.transpose.map rowToPeak)) ∧
    (∀ (mz1 i1 mz2 i2 pm : ℚ) (c : Option Int) (rt : Option ℚ), mz1 ≤ i1 →
      (mkSpectrum [[mz1, i1], [mz2, i2]] pm c rt).peaks = [(mz1, mz2), (i1, i2)]) := by
  constructor
  · intro pl pm c rt h
    unfold mkSpectrum
    rw [if_pos h]
  · intro mz1 i1 mz2 i2 pm c rt h
    show mzSort (([[mz1, i1], [mz2, i2]] : List (List ℚ)).transpose.map rowToPeak) = _
    have ht : ([[mz1, i1], [mz2, i2]] : List (List ℚ)).transpose =
        [[mz1, mz2], [i1, i2]] := rfl
    rw [ht]
    show List.insertionSort mzLe [(mz1, mz2), (i1, i2)] = [(mz1, mz2), (i1, i2)]
    simp [List.insertionSort, List.orderedInsert]
    intro hc
    exact absurd h (by unfold mzLe at hc; simpa using hc)

/-- Witness for C9 at a concrete 2-by-2 array. -/
theorem claim_constructor_transpose_witness :
    (mkSpectrum [[1, 3], [2, 4]] 0 none none).peaks = [((1 : ℚ), (2 : ℚ)), (3, 4)] :=
  claim_constructor_transpose.2 1 3 2 4 0 none none (by norm_num)

/-- C10: the spectrum built by denoise carries over the precursor mz and the
charge, but its retention time is None even when the input had one. -/
theorem claim_denoise_frame (s : Spectrum) (assigned : List Bool) (m : Nat)
    (h : 1 ≤ s.peaks.length) :
    (s.denoise assigned m).2.prec_mz = s.prec_mz ∧
      (s.denoise assigned m).2.charge = s.charge ∧
      (s.denoise assigned m).2.retention_time = none :=
  ⟨rfl, rfl, rfl⟩

/-- Witness for C10 at a concrete spectrum carrying a retention time. -/
theorem claim_denoise_frame_witness :
    ((mkSpectrum [[100, 1], [150, 2], [160, 3]] 500 (some 2) (some 7)).denoise
        [true, true, true] 8).2.retention_time = none :=
  (claim_denoise_frame (mkSpectrum [[100, 1], [150, 2], [160, 3]] 500 (some 2) (some 7))
    [true, true, true] 8 (by decide)).2.2

/-- C7 counterexample: the claim says the query is normalized the same way
as the stored full_name (lowercased with spaces removed); the code only
lowercases it.  For a record whose full name was stored as "Test Name"
(hence as "testname"), querying "Test Name" raises, although the lookup
described by the claim succeeds. -/
theorem claim_get_mass_cex :
    get_mass [⟨"Foo", storedFullName "Test Name", 42, 43, ""⟩] "Test Name"
        MassType.mono = none ∧
      claimGetRow [⟨"Foo", storedFullName "Test Name", 42, 43, ""⟩] "Test Name" =
        some ⟨"Foo", storedFullName "Test Name", 42, 43, ""⟩ := by
  constructor
  · rfl
  · rfl

/-- C7 (amended): get_mass returns the requested mass of the first row whose
name equals the query exactly, or, failing that, of the first row whose
stored full_name equals the lowercased query (spaces are kept); it raises
exactly when both lookups miss. -/
theorem claim_get_mass_amended (db : ModTable) (q : String) (t : MassType) :
    (∀ r, db.find? (fun x => x.name == q) = some r →
      get_mass db q t = some (massCol t r)) ∧
    (db.find? (fun x => x.name == q) = none →
      ∀ r, db.find? (fun x => x.full_name == pyLower q) = some r →
        get_mass db q t = some (massCol t r)) ∧
    (get_mass db q t = none ↔
      (∀ r ∈ db, r.name ≠ q) ∧ (∀ r ∈ db, r.full_name ≠ pyLower q)) := by
  refine ⟨?_, ?_, ?_⟩
  · intro r hr
    unfold get_mass getRowByName
    rw [hr]
    rfl
  · intro hnone r hr
    unfold get_mass getRowByName
    rw [hnone, hr]
    rfl
  · unfold get_mass getRowByName
    constructor
    · intro h
      cases h1 : db.find? (fun x => x.name == q) with
      | some r => rw [h1] at h; simp at h
      | none =>
        rw [h1] at h
        cases h2 : db.find? (fun x => x.full_name == pyLower q) with
        | some r => rw [h2] at h; simp at h
        | none =>
          have e1 := List.find?_eq_none.mp h1
          have e2 := List.find?_eq_none.mp h2
          constructor
          · intro r hr
            simpa using e1 r hr
          · intro r hr
            simpa using e2 r hr
    · rintro ⟨e1, e2⟩
      have h1 : db.find? (fun x => x.name == q) = none :=
        List.find?_eq_none.mpr (fun r hr => by simpa using e1 r hr)
      have h2 : db.find? (fun x => x.full_name == pyLower q) = none :=
        List.find?_eq_none.mpr (fun r hr => by simpa using e2 r hr)
      rw [h1, h2]
      rfl

/-- Witness for C7 at a concrete one-row table hit by exact name. -/
theorem claim_get_mass_amended_witness :
    get_mass [⟨"Ox", "oxidation", 16, 17, "O"⟩] "Ox" MassType.mono =
      some (massCol MassType.mono ⟨"Ox", "oxidation", 16, 17, "O"⟩) :=
  (claim_get_mass_amended [⟨"Ox", "oxidation", 16, 17, "O"⟩] "Ox" MassType.mono).1
    ⟨"Ox", "oxidation", 16, 17, "O"⟩ (by rfl)

/-- C8 counterexample: the claim's error handling is wrong on both sides.
A count group matching [0-9-]+ without being a valid integer literal is not
an exception-free case: on composition "H(2-2)" Python's int("2-2") raises
an uncaught ValueError.  And substrings matching neither symbol(count) nor
bare symbol are not silently ignored: the lenient regex still binds any
word-character run it finds, so composition "H()" yields H : 1 rather than
being skipped. -/
theorem claim_get_formula_cex :
    get_formula [⟨"X", "x", 0, 0, "H(2-2)"⟩] "X" = .error PtmError.valueError ∧
    get_formula [⟨"Z", "z", 0, 0, "H()"⟩] "Z" = .ok [("H", 1)] := ⟨rfl, rfl⟩

/-- C8 (amended): when the composition string is a space-separated sequence
of well-formed tokens — a nonempty word-character symbol, optionally
followed by a parenthesized count that is an optionally signed nonempty
digit run — get_formula maps each symbol(count) token to symbol with that
(possibly negative) count and each bare symbol to count 1; in particular
"H(2) C(1) O(1)" parses to H : 2, C : 1, O : 1 and "H(-2)" to H : -2.
Substrings matching neither form are not silently ignored: the lenient
regex still binds any word-character run, so "H-2" yields H : -2 and "(3)"
yields "3" : 1; only a count group matching [0-9-]+ without being a valid
integer literal raises an uncaught ValueError (see the counterexample). -/
theorem claim_get_formula_amended :
    (∀ (db : ModTable) (q : String) (r : ModRow)
      (ts : List (String × Option String)),
      getRowByName db q = some r → r.composition = ⟨joinTokens ts⟩ →
      (∀ t ∈ ts, wfToken t) →
      get_formula db q = .ok (pyDict (ts.map tokenValue))) ∧
    get_formula [⟨"X", "x", 0, 0, "H(2) C(1) O(1)"⟩] "X" =
      .ok [("H", 2), ("C", 1), ("O", 1)] ∧
    get_formula [⟨"Y", "y", 0, 0, "H(-2)"⟩] "Y" = .ok [("H", -2)] ∧
    get_formula [⟨"U", "u", 0, 0, "H-2"⟩] "U" = .ok [("H", -2)] ∧
    get_formula [⟨"V", "v", 0, 0, "(3)"⟩] "V" = .ok [("3", 1)] := by
  refine ⟨?_, rfl, rfl, rfl, rfl⟩
  intro db q r ts hrow hcomp hwf
  have hparse : parseFormula r.composition = some (pyDict (ts.map tokenValue)) := by
    rw [hcomp]
    unfold parseFormula findallFormula
    have hd : (⟨joinTokens ts⟩ : String).data = joinTokens ts := rfl
    rw [hd, scanGo_joinTokens ts hwf, mapM_tokenValue ts hwf]
    rfl
  unfold get_formula
  rw [hrow]
  show (match parseFormula r.composition with
    | none => Except.error PtmError.valueError
    | some d => Except.ok d) = _
  rw [hparse]

/-- Witness for C8 at a concrete composition with a signed count. -/
theorem claim_get_formula_amended_witness :
    get_formula [⟨"W", "w", 0, 0, "H(-1) C(2)"⟩] "W" =
      .ok (pyDict (([("H", some "-1"), ("C", some "2")] :
        List (String × Option String)).map tokenValue)) :=
  claim_get_formula_amended.1 [⟨"W", "w", 0, 0, "H(-1) C(2)"⟩] "W"
    ⟨"W", "w", 0, 0, "H(-1) C(2)"⟩ [("H", some "-1"), ("C", some "2")]
    (by rfl) (by rfl) (by decide)

end RPTM
